import Mathlib

/-!
Verification of the synthetic-data-generation tool (`main.py`).

The development shallowly embeds the core of the program:
* `extract_list` — parsing a free-form model response into a Python list
  (main.py lines 25-54);
* the unique-input collection loop of `main` (lines 181-229), modelled by
  `collectLoop` / `collect` over an oracle of per-attempt extraction results;
* the completion wrapper `generate` (lines 165-179) over a model of the
  HTTP/JSON outcome;
* the output-generation retry loop and dataset assembly (lines 237-252),
  modelled by `generateOutput` and `buildDataset`.

Machine strings are embedded as Lean `String` / `List Char`; Python
exceptions become `Except` / `Option` failure values.
-/

/-- A Python value as produced by `ast.literal_eval` on the list literals the
program requests.  The model is restricted to string and integer scalars,
which covers every literal form the program's prompts ask the model for. -/
inductive PyVal where
  | str : String → PyVal
  | int : Int → PyVal
deriving DecidableEq

/-- Result of `ast.literal_eval` in the model: either a scalar or a flat list
of scalars.  (`main.py` line 48 checks `isinstance(inputs, list)`, so both
shapes must be representable.) -/
inductive PyLit where
  | scalar : PyVal → PyLit
  | list : List PyVal → PyLit
deriving DecidableEq

/-- Is a Python value a string?  (Models `isinstance(x, str)`.) -/
def PyVal.isStr : PyVal → Bool
  | PyVal.str _ => true
  | PyVal.int _ => false

/-- The backtick character, written via its code point. -/
def backtickChar : Char := Char.ofNat 96

/-- The double-quote character. -/
def quoteD : Char := Char.ofNat 34

/-- The single-quote character. -/
def quoteS : Char := Char.ofNat 39

/-- The backslash character. -/
def backslashChar : Char := Char.ofNat 92

/-- Does the second list start with the first one? -/
def beginsWith : List Char → List Char → Bool
  | [], _ => true
  | _ :: _, [] => false
  | p :: ps, c :: cs => p = c && beginsWith ps cs

/-- The three-backtick code fence marker. -/
def fenceMarks : List Char := [backtickChar, backtickChar, backtickChar]

/-- The characters of "python". -/
def pyWord : List Char := ['p', 'y', 't', 'h', 'o', 'n']

/-- The characters of "json". -/
def jsonWord : List Char := ['j', 's', 'o', 'n']

/-- Fuel-indexed worker for `stripFences`; every step consumes at least one
character, so fuel equal to the input length always suffices. -/
def stripFencesAux : Nat → List Char → List Char
  | 0, _ => []
  | _ + 1, [] => []
  | fuel + 1, c :: rest =>
    if beginsWith fenceMarks (c :: rest) then
      if beginsWith pyWord (rest.drop 2) then stripFencesAux fuel ((rest.drop 2).drop 6)
      else if beginsWith jsonWord (rest.drop 2) then stripFencesAux fuel ((rest.drop 2).drop 4)
      else stripFencesAux fuel (rest.drop 2)
    else c :: stripFencesAux fuel rest

/-- Models `re.sub(r'<fence>(?:python|json)?', '', text)` from `main.py`
line 34: scan left to right, deleting each occurrence of three backticks
optionally followed immediately by "python" or "json" (longest match first,
as the regex alternation does), and continuing after the deleted match. -/
def stripFences (cs : List Char) : List Char :=
  stripFencesAux cs.length cs

/-- Python whitespace as used by `str.strip()`. -/
def isPyWs (c : Char) : Bool :=
  c = ' ' || c = '\t' || c = '\n' || c = '\r' || c = Char.ofNat 11 || c = Char.ofNat 12

/-- Models Python `str.strip()`: drop whitespace from both ends. -/
def stripChars (cs : List Char) : List Char :=
  ((cs.dropWhile isPyWs).reverse.dropWhile isPyWs).reverse

/-- The `cleaned_text` of `main.py` line 34: fence markers removed, then
whitespace stripped from both ends. -/
def cleanedText (t : String) : List Char :=
  stripChars (stripFences t.data)

/-- Models Python `str.find(c)`: index of the first occurrence, if any
(`main.py` line 37; the Python `-1` sentinel becomes `none`). -/
def findIdxOf (c : Char) : List Char → Option Nat
  | [] => none
  | x :: xs => if x = c then some 0 else (findIdxOf c xs).map (· + 1)

/-- Models Python `str.rfind(c)`: index of the last occurrence, if any
(`main.py` line 38). -/
def rfindIdxOf (c : Char) (cs : List Char) : Option Nat :=
  (findIdxOf c cs.reverse).map (fun i => cs.length - 1 - i)

/-- Models the slice `cleaned_text[start:end+1]` of `main.py` line 42. -/
def listSlice (cs : List Char) (s e : Nat) : List Char :=
  (cs.drop s).take (e + 1 - s)

/-- Skip leading Python whitespace. -/
def skipWs (cs : List Char) : List Char := cs.dropWhile isPyWs

/-- Python string-literal escape sequences (the single-character ones). -/
def escChar (c : Char) : Option Char :=
  if c = 'n' then some '\n'
  else if c = 't' then some '\t'
  else if c = 'r' then some '\r'
  else if c = 'b' then some (Char.ofNat 8)
  else if c = 'f' then some (Char.ofNat 12)
  else if c = 'v' then some (Char.ofNat 11)
  else if c = 'a' then some (Char.ofNat 7)
  else if c = '0' then some (Char.ofNat 0)
  else if c = backslashChar then some backslashChar
  else if c = quoteD then some quoteD
  else if c = quoteS then some quoteS
  else none

/-- Parse the body of a quoted Python string literal after its opening quote
`q`, interpreting escape sequences; unknown escapes keep the backslash, and a
raw newline before the closing quote is a syntax error, as in Python.
Returns the string's characters and the remaining input. -/
def parseStrChars (q : Char) : List Char → Option (List Char × List Char)
  | [] => none
  | c :: rest =>
    if c = q then some ([], rest)
    else if c = backslashChar then
      match rest with
      | [] => none
      | e :: rest2 =>
        match escChar e with
        | some ec => (parseStrChars q rest2).map (fun p => (ec :: p.1, p.2))
        | none => (parseStrChars q rest2).map (fun p => (backslashChar :: e :: p.1, p.2))
    else if c = '\n' then none
    else (parseStrChars q rest).map (fun p => (c :: p.1, p.2))

/-- Decimal digits to a natural number. -/
def natOfDigits (ds : List Char) : Nat :=
  ds.foldl (fun acc c => acc * 10 + (c.toNat - 48)) 0

/-- Parse a nonempty run of decimal digits. -/
def parseDigits (cs : List Char) : Option (Nat × List Char) :=
  match cs.takeWhile Char.isDigit with
  | [] => none
  | ds => some (natOfDigits ds, cs.dropWhile Char.isDigit)

/-- Parse an integer literal (optional minus sign). -/
def parseNum (cs : List Char) : Option (PyVal × List Char) :=
  match cs with
  | [] => none
  | c :: rest =>
    if c = '-' then (parseDigits rest).map (fun p => (PyVal.int (-(p.1 : Int)), p.2))
    else (parseDigits cs).map (fun p => (PyVal.int (p.1 : Int), p.2))

/-- Parse one scalar literal (string or integer), skipping leading
whitespace. -/
def parseVal (cs : List Char) : Option (PyVal × List Char) :=
  match skipWs cs with
  | [] => none
  | c :: rest =>
    if c = quoteD || c = quoteS then
      (parseStrChars c rest).map (fun p => (PyVal.str (String.mk p.1), p.2))
    else if c.isDigit || c = '-' then parseNum (c :: rest)
    else none

/-- Parse one or more comma-separated scalar literals followed by the closing
bracket (a trailing comma is allowed, as in Python).  The input starts after
the opening bracket; `fuel` bounds the number of items. -/
def parseItems : Nat → List Char → Option (List PyVal × List Char)
  | 0, _ => none
  | fuel + 1, cs =>
    match parseVal cs with
    | none => none
    | some (v, rest) =>
      match skipWs rest with
      | [] => none
      | c :: rest2 =>
        if c = ']' then some ([v], rest2)
        else if c = ',' then
          match skipWs rest2 with
          | [] => none
          | c2 :: rest3 =>
            if c2 = ']' then some ([v], rest3)
            else
              match parseItems fuel (c2 :: rest3) with
              | some (vs, r) => some (v :: vs, r)
              | none => none
        else none

/-- Models `ast.literal_eval` on the program's inputs: a complete literal
(surrounding whitespace allowed) that is either a flat list of string/int
scalars or a single scalar.  Any other input is a parse failure, as
`literal_eval` raises on non-literal text. -/
def pyLiteralEval (cs : List Char) : Option PyLit :=
  match skipWs cs with
  | [] => none
  | c :: rest =>
    if c = '[' then
      match skipWs rest with
      | [] => none
      | c2 :: rest2 =>
        if c2 = ']' then (if skipWs rest2 = [] then some (PyLit.list []) else none)
        else
          match parseItems (rest.length + 1) (c2 :: rest2) with
          | some (vs, r) => if skipWs r = [] then some (PyLit.list vs) else none
          | none => none
    else
      match parseVal (c :: rest) with
      | some (v, r) => if skipWs r = [] then some (PyLit.scalar v) else none
      | none => none

/-- Models Python `s.split(chr(10))`: split on newline characters; adjacent
separators and boundary separators produce empty pieces. -/
def splitOnNl : List Char → List (List Char)
  | [] => [[]]
  | c :: rest =>
    if c = '\n' then [] :: splitOnNl rest
    else
      match splitOnNl rest with
      | [] => [[c]]
      | l :: ls => (c :: l) :: ls

/-- The comprehension of `main.py` line 53:
`[inp.strip() for inp in s.split(nl) if inp.strip()]` — split on newlines,
strip each piece, and keep the non-empty results. -/
def pySplitLines (s : String) : List PyVal :=
  (((splitOnNl s.data).map stripChars).filter (fun l => l ≠ [])).map
    (fun l => PyVal.str (String.mk l))

/-- The single-multiline-string special case of `main.py` lines 52-53: a
one-element list whose element is a string containing a newline is replaced
by its split lines; anything else is returned unchanged. -/
def splitSingleMultiline (inputs : List PyVal) : List PyVal :=
  match inputs with
  | [PyVal.str s] => if s.data.contains '\n' then pySplitLines s else inputs
  | _ => inputs

/-- `extract_list` of `main.py` lines 25-54: strip fence markers and
whitespace, slice from the first opening bracket to the last closing bracket,
run the literal parser on the slice, require a list, and apply the
single-multiline-string special case.  Python's `raise ValueError` becomes
`Except.error` with the same message. -/
def extract_list (response_text : String) : Except String (List PyVal) :=
  let cleaned_text := cleanedText response_text
  match findIdxOf '[' cleaned_text, rfindIdxOf ']' cleaned_text with
  | some start, some stop =>
    if stop < start then Except.error "No valid list found in the response."
    else
      match pyLiteralEval (listSlice cleaned_text start stop) with
      | none => Except.error "Error parsing list from response."
      | some (PyLit.scalar _) => Except.error "Parsed object is not a list."
      | some (PyLit.list inputs) => Except.ok (splitSingleMultiline inputs)
  | _, _ => Except.error "No valid list found in the response."

/-- Is an extraction result a failure? -/
def extractFails (r : Except String (List PyVal)) : Bool :=
  match r with
  | Except.error _ => true
  | Except.ok _ => false

/-- One insertion step of `dict.fromkeys`: append the key if absent. -/
def dedupStep {α : Type} [DecidableEq α] (acc : List α) (x : α) : List α :=
  if x ∈ acc then acc else acc ++ [x]

/-- Models `list(dict.fromkeys(xs))` (`main.py` lines 188 and 220):
first-occurrence deduplication in insertion order. -/
def dedupFirst {α : Type} [DecidableEq α] (l : List α) : List α :=
  l.foldl dedupStep []

/-- The inner retry loop of `main.py` lines 204-217, seen through the oracle
`resp` of per-attempt extraction results (`none` is a failed parse, which is
logged and retried; `some items` is a successful `extract_list`).  Returns
the first successful extraction at or after attempt `idx`, with the next
attempt index; `fuel` bounds the attempts the model will look at. -/
def nextSuccess (resp : Nat → Option (List PyVal)) : Nat → Nat → Option (List PyVal × Nat)
  | 0, _ => none
  | fuel + 1, idx =>
    match resp idx with
    | some current_inputs => some (current_inputs, idx + 1)
    | none => nextSuccess resp fuel (idx + 1)

/-- The unique-input collection loop of `main.py` lines 187-224: while the
deduplicated accumulated list is shorter than `n`, compute `missing` and
`chunk_size = 8 if missing >= 8 else missing` (line 195), obtain the next
successfully parsed chunk, and append it wholesale to `all_inputs`
(line 219).  Returns the deduplicated accumulated list at exit (before the
final truncation of lines 227-229) together with the requested chunk sizes,
one per chunk issued.  `cf` bounds the number of chunks, `rf` the number of
attempts per chunk; the code itself has no bound, so the bounds only encode
"the loop terminates within so many steps". -/
def collectLoop (resp : Nat → Option (List PyVal)) (n : Nat) :
    Nat → Nat → Nat → List PyVal → Option (List PyVal × List Nat)
  | 0, _, _, _ => none
  | cf + 1, rf, idx, all_inputs =>
    let unique_inputs := dedupFirst all_inputs
    if n ≤ unique_inputs.length then some (unique_inputs, [])
    else
      let missing := n - unique_inputs.length
      let chunk_size := if 8 ≤ missing then 8 else missing
      match nextSuccess resp rf idx with
      | none => none
      | some (current_inputs, idx2) =>
        match collectLoop resp n cf rf idx2 (all_inputs ++ current_inputs) with
        | none => none
        | some (u, szs) => some (u, chunk_size :: szs)

/-- The collection phase of `main` (lines 181-229): run the loop from an
empty accumulator and apply the final truncation
`unique_inputs = unique_inputs[:n]` of lines 227-229. -/
def collect (resp : Nat → Option (List PyVal)) (n cf rf : Nat) :
    Option (List PyVal × List Nat) :=
  (collectLoop resp n cf rf 0 []).map
    (fun p => (if n < p.1.length then p.1.take n else p.1, p.2))

/-- A flattened view of the same loop used for the termination argument:
each step consumes one attempt, either skipping a failed parse or appending
a successful chunk.  It issues the same sequence of appends as
`collectLoop`. -/
def collectFlat (resp : Nat → Option (List PyVal)) (n : Nat) :
    Nat → Nat → List PyVal → Option (List PyVal)
  | 0, _, _ => none
  | fuel + 1, idx, all_inputs =>
    if n ≤ (dedupFirst all_inputs).length then some (dedupFirst all_inputs)
    else
      match resp idx with
      | none => collectFlat resp n fuel (idx + 1) all_inputs
      | some items => collectFlat resp n fuel (idx + 1) (all_inputs ++ items)

/-- Concatenation of the successful extraction results among the attempts
`idx, idx + 1, ..., idx + k - 1` of the oracle. -/
def succCat (resp : Nat → Option (List PyVal)) : Nat → Nat → List PyVal
  | _, 0 => []
  | idx, k + 1 =>
    (match resp idx with
     | some items => items
     | none => []) ++ succCat resp (idx + 1) k

/-- Turn an oracle of raw response texts into an oracle of extraction
results: a text whose `extract_list` fails is a failed attempt. -/
def respOfTexts (texts : Nat → String) (i : Nat) : Option (List PyVal) :=
  match extract_list (texts i) with
  | Except.ok items => some items
  | Except.error _ => none

/-- A JSON value, for the shape checks `generate` performs on the endpoint's
response. -/
inductive Json where
  | null : Json
  | str : String → Json
  | num : Int → Json
  | arr : List Json → Json
  | obj : List (String × Json) → Json

/-- Field lookup in a JSON object's field list. -/
def lookupField : List (String × Json) → String → Option Json
  | [], _ => none
  | (k, v) :: rest, key => if k = key then some v else lookupField rest key

/-- Models Python's `response[key]` on a decoded JSON object: `none` stands
for the `KeyError`/`TypeError` raised on a missing field or non-object. -/
def jsonGet : Json → String → Option Json
  | Json.obj fields, key => lookupField fields key
  | _, _ => none

/-- The `generate` wrapper of `main.py` lines 165-179.  The argument models
the outcome of `requests.post(...).json()`: `Except.error` is any transport
or JSON-decoding exception.  The body mirrors
`response["choices"][0]["message"]["content"]`; every exceptional path falls
into the `except` clause, which logs and returns the empty string.  The
model is restricted to string-valued `content` fields. -/
def generate (httpResult : Except Unit Json) : String :=
  match httpResult with
  | Except.error _ => ""
  | Except.ok response =>
    match jsonGet response "choices" with
    | some (Json.arr (choice0 :: _)) =>
      match jsonGet choice0 "message" with
      | some message =>
        match jsonGet message "content" with
        | some (Json.str content) => content
        | _ => ""
      | _ => ""
    | _ => ""

/-- The well-formed response shape of the endpoint
(`{choices: [{message: {content: ...}}]}`). -/
def mkResponse (content : String) : Json :=
  Json.obj [("choices", Json.arr [Json.obj [("message",
    Json.obj [("content", Json.str content)])]])]

/-- The per-input output retry loop of `main.py` lines 239-246: call
`generate` (whose successive results the oracle `og` supplies), retry while
the result is empty, and stop at the first non-empty output.  `fuel` bounds
the attempts the model will look at. -/
def generateOutput (og : Nat → String) : Nat → Nat → Option String
  | 0, _ => none
  | fuel + 1, idx =>
    let output := og idx
    if output = "" then generateOutput og fuel (idx + 1) else some output

/-- One dataset record (`main.py` lines 248-252). -/
structure Record where
  instruction : String
  input : PyVal
  output : String
deriving DecidableEq

/-- The dataset-assembly loop of `main.py` lines 237-252: for the `i`-th
collected input, run the output retry loop on that input's oracle
`og i` and pair the results into records. -/
def buildDataset (system_prompt : String) (og : Nat → Nat → String) (fuel : Nat) :
    Nat → List PyVal → Option (List Record)
  | _, [] => some []
  | i, inp :: rest =>
    match generateOutput (og i) fuel 0 with
    | none => none
    | some output =>
      (buildDataset system_prompt og fuel (i + 1) rest).map
        (fun ds => { instruction := system_prompt, input := inp, output := output } :: ds)

theorem foldl_dedupStep_nodup {α : Type} [DecidableEq α] :
    ∀ (l acc : List α), acc.Nodup → (l.foldl dedupStep acc).Nodup := by
  intro l
  induction l with
  | nil => intro acc h; simpa using h
  | cons x xs ih =>
    intro acc h
    simp only [List.foldl_cons]
    apply ih
    unfold dedupStep
    split
    · exact h
    · rename_i hx
      simp [List.nodup_append, h, hx]

theorem mem_foldl_dedupStep {α : Type} [DecidableEq α] :
    ∀ (l acc : List α) (x : α), x ∈ l.foldl dedupStep acc ↔ x ∈ acc ∨ x ∈ l := by
  intro l
  induction l with
  | nil => simp
  | cons y ys ih =>
    intro acc x
    simp only [List.foldl_cons, ih, List.mem_cons]
    unfold dedupStep
    split
    · rename_i hy
      constructor
      · rintro (h | h)
        · exact Or.inl h
        · exact Or.inr (Or.inr h)
      · rintro (h | h | h)
        · exact Or.inl h
        · subst h; exact Or.inl hy
        · exact Or.inr h
    · simp only [List.mem_append, List.mem_singleton]
      tauto

theorem dedupFirst_nodup {α : Type} [DecidableEq α] (l : List α) :
    (dedupFirst l).Nodup :=
  foldl_dedupStep_nodup l [] List.nodup_nil

theorem mem_dedupFirst {α : Type} [DecidableEq α] (l : List α) (x : α) :
    x ∈ dedupFirst l ↔ x ∈ l := by
  simpa [dedupFirst] using mem_foldl_dedupStep l [] x

theorem foldl_dedupStep_filter {α : Type} [DecidableEq α] :
    ∀ (l acc : List α) (x : α), x ∈ acc →
      l.foldl dedupStep acc = (l.filter (fun y => y ≠ x)).foldl dedupStep acc := by
  intro l
  induction l with
  | nil => intro acc x _; rfl
  | cons y ys ih =>
    intro acc x hx
    by_cases hyx : y = x
    · subst hyx
      have hstep : dedupStep acc y = acc := by simp [dedupStep, hx]
      simp only [List.foldl_cons, List.filter_cons, hstep]
      rw [if_neg (by simp)]
      exact ih acc y hx
    · have hmem : x ∈ dedupStep acc y := by
        unfold dedupStep
        split
        · exact hx
        · exact List.mem_append.mpr (Or.inl hx)
      simp only [List.foldl_cons, List.filter_cons]
      rw [if_pos (by simp [hyx])]
      simp only [List.foldl_cons]
      exact ih (dedupStep acc y) x hmem

theorem foldl_dedupStep_cons_out {α : Type} [DecidableEq α] :
    ∀ (l : List α) (x : α) (acc : List α), (∀ y ∈ l, y ≠ x) →
      l.foldl dedupStep (x :: acc) = x :: l.foldl dedupStep acc := by
  intro l
  induction l with
  | nil => intro x acc _; rfl
  | cons y ys ih =>
    intro x acc hall
    have hyx : y ≠ x := hall y (List.mem_cons_self y ys)
    have hstep : dedupStep (x :: acc) y = x :: dedupStep acc y := by
      unfold dedupStep
      by_cases hy : y ∈ acc
      · simp [hy, hyx]
      · simp [hy, hyx]
    simp only [List.foldl_cons, hstep]
    exact ih x (dedupStep acc y) (fun z hz => hall z (List.mem_cons_of_mem y hz))

theorem dedupFirst_cons {α : Type} [DecidableEq α] (x : α) (l : List α) :
    dedupFirst (x :: l) = x :: dedupFirst (l.filter (fun y => y ≠ x)) := by
  unfold dedupFirst
  simp only [List.foldl_cons]
  have h0 : dedupStep ([] : List α) x = [x] := by simp [dedupStep]
  rw [h0, foldl_dedupStep_filter l [x] x (by simp)]
  exact foldl_dedupStep_cons_out _ x [] (fun y hy => by
    have := List.of_mem_filter hy
    simpa using this)

theorem nextSuccess_mono (resp : Nat → Option (List PyVal)) :
    ∀ (rf rf' idx : Nat) (p : List PyVal × Nat),
      nextSuccess resp rf idx = some p → rf ≤ rf' →
      nextSuccess resp rf' idx = some p := by
  intro rf
  induction rf with
  | zero => intro rf' idx p h _; simp [nextSuccess] at h
  | succ rf ih =>
    intro rf' idx p h hle
    obtain ⟨rf'', rfl⟩ : ∃ k, rf' = k + 1 := ⟨rf' - 1, by omega⟩
    cases hr : resp idx with
    | some items =>
      simp only [nextSuccess, hr] at h ⊢
      exact h
    | none =>
      simp only [nextSuccess, hr] at h ⊢
      exact ih rf'' (idx + 1) p h (by omega)

theorem collectLoop_mono (resp : Nat → Option (List PyVal)) (n : Nat) :
    ∀ (cf cf' rf rf' idx : Nat) (all : List PyVal) (out : List PyVal × List Nat),
      collectLoop resp n cf rf idx all = some out → cf ≤ cf' → rf ≤ rf' →
      collectLoop resp n cf' rf' idx all = some out := by
  intro cf
  induction cf with
  | zero => intro cf' rf rf' idx all out h _ _; simp [collectLoop] at h
  | succ cf ih =>
    intro cf' rf rf' idx all out h hcf hrf
    obtain ⟨cf'', rfl⟩ : ∃ k, cf' = k + 1 := ⟨cf' - 1, by omega⟩
    simp only [collectLoop] at h ⊢
    by_cases hexit : n ≤ (dedupFirst all).length
    · rw [if_pos hexit] at h ⊢
      exact h
    · rw [if_neg hexit] at h ⊢
      cases hns : nextSuccess resp rf idx with
      | none => simp only [hns] at h; exact Option.noConfusion h
      | some p =>
        obtain ⟨items, idx2⟩ := p
        simp only [hns] at h
        simp only [nextSuccess_mono resp rf rf' idx (items, idx2) hns hrf]
        cases hrec : collectLoop resp n cf rf idx2 (all ++ items) with
        | none => simp only [hrec] at h; exact Option.noConfusion h
        | some q =>
          simp only [hrec] at h
          simp only [ih cf'' rf rf' idx2 (all ++ items) q hrec (by omega) hrf]
          exact h

theorem collectFlat_toLoop (resp : Nat → Option (List PyVal)) (n : Nat) :
    ∀ (fuel idx : Nat) (all u : List PyVal),
      collectFlat resp n fuel idx all = some u →
      ∃ szs, collectLoop resp n fuel fuel idx all = some (u, szs) := by
  intro fuel
  induction fuel with
  | zero => intro idx all u h; simp [collectFlat] at h
  | succ fuel ih =>
    intro idx all u h
    simp only [collectFlat] at h
    simp only [collectLoop]
    by_cases hexit : n ≤ (dedupFirst all).length
    · rw [if_pos hexit] at h
      rw [if_pos hexit]
      exact ⟨[], by simp_all⟩
    · rw [if_neg hexit] at h
      rw [if_neg hexit]
      cases hr : resp idx with
      | none =>
        simp only [hr] at h
        obtain ⟨szs, hloop⟩ := ih (idx + 1) all u h
        cases fuel with
        | zero => simp [collectLoop] at hloop
        | succ f =>
          simp only [collectLoop] at hloop
          rw [if_neg hexit] at hloop
          cases hns : nextSuccess resp (f + 1) (idx + 1) with
          | none => simp only [hns] at hloop; exact Option.noConfusion hloop
          | some p =>
            obtain ⟨items, idx2⟩ := p
            simp only [hns] at hloop
            cases hrec : collectLoop resp n f (f + 1) idx2 (all ++ items) with
            | none => simp only [hrec] at hloop; exact Option.noConfusion hloop
            | some q =>
              simp only [hrec] at hloop
              have hns2 : nextSuccess resp (f + 1 + 1) idx = some (items, idx2) := by
                simp only [nextSuccess, hr]
                exact hns
              simp only [hns2]
              have hrec2 : collectLoop resp n (f + 1) (f + 1 + 1) idx2 (all ++ items) =
                  some q :=
                collectLoop_mono resp n f (f + 1) (f + 1) (f + 1 + 1) idx2 (all ++ items) q
                  hrec (by omega) (by omega)
              simp only [hrec2]
              obtain ⟨u2, szs2⟩ := q
              simp only [Option.some.injEq, Prod.mk.injEq] at hloop ⊢
              exact ⟨_, ⟨hloop.1, rfl⟩⟩
      | some items =>
        simp only [hr] at h
        obtain ⟨szs, hloop⟩ := ih (idx + 1) (all ++ items) u h
        have hns2 : nextSuccess resp (fuel + 1) idx = some (items, idx + 1) := by
          simp only [nextSuccess, hr]
        simp only [hns2]
        have hloop2 : collectLoop resp n fuel (fuel + 1) (idx + 1) (all ++ items) =
            some (u, szs) :=
          collectLoop_mono resp n fuel fuel fuel (fuel + 1) (idx + 1) (all ++ items)
            (u, szs) hloop (by omega) (by omega)
        simp only [hloop2]
        exact ⟨_, rfl⟩

theorem collectFlat_term (resp : Nat → Option (List PyVal)) (n : Nat) :
    ∀ (k idx : Nat) (all : List PyVal),
      n ≤ (dedupFirst (all ++ succCat resp idx k)).length →
      ∃ u, collectFlat resp n (k + 1) idx all = some u := by
  intro k
  induction k with
  | zero =>
    intro idx all h
    simp only [succCat, List.append_nil] at h
    exact ⟨dedupFirst all, by simp [collectFlat, h]⟩
  | succ k ih =>
    intro idx all h
    simp only [collectFlat]
    by_cases hexit : n ≤ (dedupFirst all).length
    · rw [if_pos hexit]
      exact ⟨dedupFirst all, rfl⟩
    · rw [if_neg hexit]
      cases hr : resp idx with
      | none =>
        simp only [hr]
        apply ih (idx + 1) all
        have heq : all ++ succCat resp idx (k + 1) = all ++ succCat resp (idx + 1) k := by
          simp [succCat, hr]
        rw [heq] at h
        exact h
      | some items =>
        simp only [hr]
        apply ih (idx + 1) (all ++ items)
        have heq : all ++ succCat resp idx (k + 1) =
            (all ++ items) ++ succCat resp (idx + 1) k := by
          simp [succCat, hr]
        rw [heq] at h
        exact h

theorem collectLoop_sound (resp : Nat → Option (List PyVal)) (n : Nat) :
    ∀ (cf rf idx : Nat) (all u : List PyVal) (szs : List Nat),
      collectLoop resp n cf rf idx all = some (u, szs) →
      n ≤ u.length ∧ u.Nodup := by
  intro cf
  induction cf with
  | zero => intro rf idx all u szs h; simp [collectLoop] at h
  | succ cf ih =>
    intro rf idx all u szs h
    simp only [collectLoop] at h
    by_cases hexit : n ≤ (dedupFirst all).length
    · rw [if_pos hexit] at h
      simp only [Option.some.injEq, Prod.mk.injEq] at h
      rw [← h.1]
      exact ⟨hexit, dedupFirst_nodup all⟩
    · rw [if_neg hexit] at h
      cases hns : nextSuccess resp rf idx with
      | none => simp only [hns] at h; exact Option.noConfusion h
      | some p =>
        obtain ⟨items, idx2⟩ := p
        simp only [hns] at h
        cases hrec : collectLoop resp n cf rf idx2 (all ++ items) with
        | none => simp only [hrec] at h; exact Option.noConfusion h
        | some q =>
          obtain ⟨u2, szs2⟩ := q
          simp only [hrec, Option.some.injEq, Prod.mk.injEq] at h
          obtain ⟨hu, _⟩ := h
          subst hu
          exact ih rf idx2 (all ++ items) u2 szs2 hrec

theorem collect_sound (resp : Nat → Option (List PyVal)) (n cf rf : Nat)
    (r : List PyVal) (szs : List Nat)
    (h : collect resp n cf rf = some (r, szs)) :
    r.length = n ∧ r.Nodup := by
  unfold collect at h
  cases hloop : collectLoop resp n cf rf 0 [] with
  | none => rw [hloop] at h; exact Option.noConfusion h
  | some p =>
    obtain ⟨u, szs0⟩ := p
    obtain ⟨hlen, hnodup⟩ := collectLoop_sound resp n cf rf 0 [] u szs0 hloop
    rw [hloop] at h
    simp at h
    obtain ⟨hr, _⟩ := h
    by_cases hgt : n < u.length
    · rw [if_pos hgt] at hr
      subst hr
      constructor
      · simp only [List.length_take]
        omega
      · exact (List.take_sublist n u).nodup hnodup
    · rw [if_neg hgt] at hr
      subst hr
      exact ⟨by omega, hnodup⟩

theorem mem_stripFencesAux :
    ∀ (fuel : Nat) (l : List Char) (x : Char), x ∈ stripFencesAux fuel l → x ∈ l := by
  intro fuel
  induction fuel with
  | zero => intro l x h; simp [stripFencesAux] at h
  | succ fuel ih =>
    intro l x h
    cases l with
    | nil => simp [stripFencesAux] at h
    | cons c rest =>
      simp only [stripFencesAux] at h
      by_cases h1 : beginsWith fenceMarks (c :: rest)
      · rw [if_pos h1] at h
        by_cases h2 : beginsWith pyWord (rest.drop 2)
        · rw [if_pos h2] at h
          exact List.mem_cons_of_mem _
            (List.mem_of_mem_drop (List.mem_of_mem_drop (ih _ x h)))
        · rw [if_neg h2] at h
          by_cases h3 : beginsWith jsonWord (rest.drop 2)
          · rw [if_pos h3] at h
            exact List.mem_cons_of_mem _
              (List.mem_of_mem_drop (List.mem_of_mem_drop (ih _ x h)))
          · rw [if_neg h3] at h
            exact List.mem_cons_of_mem _ (List.mem_of_mem_drop (ih _ x h))
      · rw [if_neg h1] at h
        rcases List.mem_cons.mp h with hc | hr
        · exact hc ▸ List.mem_cons_self c rest
        · exact List.mem_cons_of_mem _ (ih rest x hr)

theorem mem_stripFences (l : List Char) (x : Char) : x ∈ stripFences l → x ∈ l :=
  mem_stripFencesAux l.length l x

theorem mem_stripChars (l : List Char) (x : Char) : x ∈ stripChars l → x ∈ l := by
  intro h
  unfold stripChars at h
  rw [List.mem_reverse] at h
  have h2 := (List.dropWhile_sublist (p := isPyWs)
    (l := (l.dropWhile isPyWs).reverse)).subset h
  rw [List.mem_reverse] at h2
  exact (List.dropWhile_sublist (p := isPyWs) (l := l)).subset h2

theorem mem_cleanedText (t : String) (x : Char) : x ∈ cleanedText t → x ∈ t.data :=
  fun h => mem_stripFences t.data x (mem_stripChars (stripFences t.data) x h)

theorem findIdxOf_eq_none (c : Char) :
    ∀ (l : List Char), findIdxOf c l = none ↔ c ∉ l := by
  intro l
  induction l with
  | nil => simp [findIdxOf]
  | cons y ys ih =>
    simp only [findIdxOf, List.mem_cons]
    by_cases hy : y = c
    · simp [hy]
    · rw [if_neg hy]
      cases hfo : findIdxOf c ys with
      | none =>
        have hnotin : c ∉ ys := ih.mp hfo
        constructor
        · intro _
          rintro (rfl | hm)
          · exact hy rfl
          · exact hnotin hm
        · intro _
          rfl
      | some i =>
        have hmem : c ∈ ys := by
          by_contra hc
          rw [← ih] at hc
          rw [hc] at hfo
          exact Option.noConfusion hfo
        constructor
        · intro hk
          exact Option.noConfusion hk
        · intro hn
          exact absurd (Or.inr hmem) hn

theorem generateOutput_ne_empty (og : Nat → String) :
    ∀ (fuel idx : Nat) (out : String),
      generateOutput og fuel idx = some out → out ≠ "" := by
  intro fuel
  induction fuel with
  | zero => intro idx out h; simp [generateOutput] at h
  | succ fuel ih =>
    intro idx out h
    simp only [generateOutput] at h
    by_cases he : og idx = ""
    · rw [if_pos he] at h
      exact ih (idx + 1) out h
    · rw [if_neg he] at h
      simp only [Option.some.injEq] at h
      rw [← h]
      exact he

theorem generateOutput_term (og : Nat → String) :
    ∀ (j idx : Nat), og (idx + j) ≠ "" →
      ∃ out, generateOutput og (j + 1) idx = some out := by
  intro j
  induction j with
  | zero =>
    intro idx h
    refine ⟨og idx, ?_⟩
    simp only [generateOutput]
    rw [if_neg (by simpa using h)]
  | succ j ih =>
    intro idx h
    by_cases he : og idx = ""
    · obtain ⟨out, ho⟩ := ih (idx + 1)
        (by rw [show idx + 1 + j = idx + (j + 1) by omega]; exact h)
      refine ⟨out, ?_⟩
      simp only [generateOutput]
      rw [if_pos he]
      exact ho
    · refine ⟨og idx, ?_⟩
      simp only [generateOutput]
      rw [if_neg he]

/-- C9: the output-generation loop (`main.py` lines 239-246) never yields an
empty string: whatever it returns is non-empty, and as soon as one `generate`
call returns a non-empty result the loop terminates with a non-empty
output. -/
theorem C9_output_nonempty (og : Nat → String) :
    (∀ (fuel idx : Nat) (out : String),
      generateOutput og fuel idx = some out → out ≠ "") ∧
    (∀ j : Nat, og j ≠ "" →
      ∃ out, generateOutput og (j + 1) 0 = some out ∧ out ≠ "") := by
  constructor
  · exact generateOutput_ne_empty og
  · intro j h
    obtain ⟨out, ho⟩ := generateOutput_term og j 0 (by simpa using h)
    exact ⟨out, ho, generateOutput_ne_empty og (j + 1) 0 out ho⟩

theorem C9_output_nonempty_witness :
    ∃ out, generateOutput (fun _ => "hello") 1 0 = some out ∧ out ≠ "" :=
  (C9_output_nonempty (fun _ => "hello")).2 0 (by decide)

/-- C10: the extractor performs no element-type validation: a list whose
elements are not strings passes through the single-multiline special case
unchanged, the concrete input "[1, 2]" extracts to the two integers, and the
collector accumulates them. -/
theorem C10_no_type_validation :
    (∀ vs : List PyVal, vs.all (fun v => ! v.isStr) → splitSingleMultiline vs = vs) ∧
    extract_list "[1, 2]" = Except.ok [PyVal.int 1, PyVal.int 2] ∧
    collect (fun _ => some [PyVal.int 1, PyVal.int 2]) 2 2 2 =
      some ([PyVal.int 1, PyVal.int 2], [2]) := by
  refine ⟨?_, by rfl, by decide⟩
  intro vs h
  cases vs with
  | nil => rfl
  | cons v tail =>
    cases tail with
    | cons w tail2 =>
      cases v with
      | int n => rfl
      | str s => rfl
    | nil =>
      cases v with
      | int n => rfl
      | str s => simp [PyVal.isStr] at h

theorem C10_no_type_validation_witness :
    splitSingleMultiline [PyVal.int 3] = [PyVal.int 3] :=
  C10_no_type_validation.1 [PyVal.int 3] (by decide)

/-- C1: for any target n ≥ 1, if among the first k attempts the successfully
extracted chunks together contain at least n distinct items, the collection
loop terminates (fuel k + 1 suffices) and returns exactly n pairwise
distinct items. -/
theorem C1_collect_terminates_exact (texts : Nat → String) (n k : Nat)
    (_hn : 1 ≤ n)
    (hk : n ≤ (dedupFirst (succCat (respOfTexts texts) 0 k)).length) :
    ∃ r szs, collect (respOfTexts texts) n (k + 1) (k + 1) = some (r, szs) ∧
      r.length = n ∧ r.Nodup := by
  obtain ⟨u, hu⟩ := collectFlat_term (respOfTexts texts) n k 0 [] (by simpa using hk)
  obtain ⟨szs, hloop⟩ := collectFlat_toLoop (respOfTexts texts) n (k + 1) 0 [] u hu
  have hc : collect (respOfTexts texts) n (k + 1) (k + 1) =
      some (if n < u.length then u.take n else u, szs) := by
    unfold collect
    rw [hloop]
    rfl
  exact ⟨_, szs, hc,
    collect_sound (respOfTexts texts) n (k + 1) (k + 1) _ szs hc⟩

theorem C1_collect_terminates_exact_witness :
    ∃ r szs,
      collect (respOfTexts (fun _ => "[\"red\", \"green\"]")) 2 2 2 =
        some (r, szs) ∧ r.length = 2 ∧ r.Nodup :=
  C1_collect_terminates_exact (fun _ => "[\"red\", \"green\"]") 2 1
    (by decide) (by decide)

/-- C2 counterexample: the extractor itself does not deduplicate — on the
response text containing the literal with a repeated element it returns the
duplicate unchanged, so its result contains two equal strings. -/
theorem C2_extract_no_dedup_counterexample :
    extract_list "[\"a\", \"a\"]" = Except.ok [PyVal.str "a", PyVal.str "a"] := by
  rfl

/-- C2 (amended): deduplication happens in the collection loop, not in the
extractor: `list(dict.fromkeys(...))` (modelled by `dedupFirst`) always
produces a duplicate-free list, and it keeps the first occurrence of each
item in order, as the characterising recursion shows. -/
theorem C2_dedup_first_occurrence :
    (∀ l : List PyVal, (dedupFirst l).Nodup) ∧
    (∀ (x : PyVal) (l : List PyVal),
      dedupFirst (x :: l) = x :: dedupFirst (l.filter (fun y => y ≠ x))) :=
  ⟨fun l => dedupFirst_nodup l, fun x l => dedupFirst_cons x l⟩

/-- C3 counterexample: `generate` does not retry — a single failed attempt
(transport error, or a response missing the expected fields) makes it return
the empty string, a failure value, to its caller. -/
theorem C3_generate_returns_empty_counterexample :
    generate (Except.error ()) = "" ∧
    generate (Except.ok (Json.obj [])) = "" :=
  ⟨rfl, rfl⟩

/-- C3 (amended): `generate` makes a single attempt per call: it returns the
extracted content of a well-formed response and the empty string on any
failure; the indefinite retrying lives at its two call sites (the chunk
parse loop and the output loop), not in `generate` itself. -/
theorem C3_generate_single_attempt :
    (∀ content : String, generate (Except.ok (mkResponse content)) = content) ∧
    (∀ e : Unit, generate (Except.error e) = "") :=
  ⟨fun _ => rfl, fun _ => rfl⟩

/-- C4 counterexample: the loop appends newly extracted items without any
truncation, so with target 1 and a first chunk of two fresh items the
accumulated unique sequence reaches length 2 > 1 while the loop runs. -/
theorem C4_no_truncation_counterexample :
    collectLoop (fun _ => some [PyVal.str "a", PyVal.str "b"]) 1 2 2 0 [] =
      some ([PyVal.str "a", PyVal.str "b"], [1]) ∧
    1 < ([PyVal.str "a", PyVal.str "b"] : List PyVal).length := by
  constructor
  · rfl
  · decide

/-- C4 (amended): new items are appended without truncation and the unique
size can exceed the target during the loop; the final truncation
`unique_inputs[:n]` (lines 227-229) is what makes the returned sequence have
length exactly `n` (and it stays duplicate-free). -/
theorem C4_collect_truncates_to_target (resp : Nat → Option (List PyVal))
    (n cf rf : Nat) (r : List PyVal) (szs : List Nat)
    (h : collect resp n cf rf = some (r, szs)) :
    r.length = n ∧ r.Nodup :=
  collect_sound resp n cf rf r szs h

theorem C4_collect_truncates_to_target_witness :
    ([PyVal.str "a"] : List PyVal).length = 1 ∧
    ([PyVal.str "a"] : List PyVal).Nodup :=
  C4_collect_truncates_to_target (fun _ => some [PyVal.str "a", PyVal.str "b"])
    1 2 2 [PyVal.str "a"] [1] (by rfl)

/-- C5 counterexample: nothing filters empty strings outside the
newline-split path: the response text with an empty string literal extracts
to the empty string, the collector accumulates and returns it, and the
assembled dataset carries a record whose `input` is the empty string. -/
theorem C5_empty_string_collected_counterexample :
    extract_list "[\"\"]" = Except.ok [PyVal.str ""] ∧
    collect (fun _ => some [PyVal.str ""]) 1 2 2 = some ([PyVal.str ""], [1]) ∧
    buildDataset "sys" (fun _ _ => "out") 1 0 [PyVal.str ""] =
      some [{ instruction := "sys", input := PyVal.str "", output := "out" }] ∧
    PyVal.str "" ∈ ([PyVal.str ""] : List PyVal) := by
  refine ⟨by rfl, by rfl, by rfl, by decide⟩

/-- C5 (amended): the only non-emptiness the code guarantees is in the
newline-split special case, whose comprehension discards pieces that strip
to nothing: every value it produces is a non-empty string. -/
theorem C5_split_lines_nonempty (s : String) (hnl : s.data.contains '\n') :
    ∀ v ∈ splitSingleMultiline [PyVal.str s], ∃ t, v = PyVal.str t ∧ t ≠ "" := by
  intro v hv
  simp only [splitSingleMultiline, hnl, if_true] at hv
  unfold pySplitLines at hv
  simp only [List.mem_map] at hv
  obtain ⟨l, hl, rfl⟩ := hv
  refine ⟨String.mk l, rfl, ?_⟩
  have hne : l ≠ [] := by
    have := (List.mem_filter.mp hl).2
    simpa using this
  intro heq
  apply hne
  have hdata : (String.mk l).data = String.data "" := congrArg String.data heq
  simpa using hdata

theorem C5_split_lines_nonempty_witness :
    ∃ t, PyVal.str "a" = PyVal.str t ∧ t ≠ "" :=
  C5_split_lines_nonempty "a\nb" (by decide) (PyVal.str "a") (by decide)

/-- C6: `extract_list` fails exactly when, on the cleaned text, the first
opening bracket or the last closing bracket is absent, the last closing
bracket precedes the first opening bracket, the delimited slice does not
parse as a literal, or it parses to a non-list; in particular any text
containing neither bracket character fails. -/
theorem C6_extract_failure_conditions :
    (∀ t : String,
      extractFails (extract_list t) = true ↔
        (findIdxOf '[' (cleanedText t) = none ∨
         rfindIdxOf ']' (cleanedText t) = none ∨
         (∃ s e, findIdxOf '[' (cleanedText t) = some s ∧
            rfindIdxOf ']' (cleanedText t) = some e ∧
            (e < s ∨
             pyLiteralEval (listSlice (cleanedText t) s e) = none ∨
             (∃ v, pyLiteralEval (listSlice (cleanedText t) s e) =
                some (PyLit.scalar v)))))) ∧
    (∀ t : String, '[' ∉ t.data → ']' ∉ t.data →
      extractFails (extract_list t) = true) := by
  constructor
  · intro t
    cases hf : findIdxOf '[' (cleanedText t) with
    | none =>
      cases hr : rfindIdxOf ']' (cleanedText t) with
      | none => simp [extract_list, extractFails, hf, hr]
      | some e => simp [extract_list, extractFails, hf, hr]
    | some s =>
      cases hr : rfindIdxOf ']' (cleanedText t) with
      | none => simp [extract_list, extractFails, hf, hr]
      | some e =>
        by_cases hlt : e < s
        · have hev : extract_list t = Except.error "No valid list found in the response." := by
            unfold extract_list
            simp only [hf, hr]
            rw [if_pos hlt]
          rw [hev]
          simp only [extractFails, true_iff]
          exact Or.inr (Or.inr ⟨s, e, rfl, rfl, Or.inl hlt⟩)
        · cases hp : pyLiteralEval (listSlice (cleanedText t) s e) with
          | none =>
            have hev : extract_list t = Except.error "Error parsing list from response." := by
              unfold extract_list
              simp only [hf, hr]
              rw [if_neg hlt]
              simp only [hp]
            rw [hev]
            simp only [extractFails, true_iff]
            exact Or.inr (Or.inr ⟨s, e, rfl, rfl, Or.inr (Or.inl hp)⟩)
          | some lit =>
            cases lit with
            | scalar v =>
              have hev : extract_list t = Except.error "Parsed object is not a list." := by
                unfold extract_list
                simp only [hf, hr]
                rw [if_neg hlt]
                simp only [hp]
              rw [hev]
              simp only [extractFails, true_iff]
              exact Or.inr (Or.inr ⟨s, e, rfl, rfl, Or.inr (Or.inr ⟨v, hp⟩)⟩)
            | list inputs =>
              have hev : extract_list t = Except.ok (splitSingleMultiline inputs) := by
                unfold extract_list
                simp only [hf, hr]
                rw [if_neg hlt]
                simp only [hp]
              rw [hev]
              simp only [extractFails, Bool.false_eq_true, false_iff]
              rintro (h1 | h1 | ⟨s2, e2, hs2, he2, hcond⟩)
              · exact Option.noConfusion h1
              · exact Option.noConfusion h1
              · injection hs2 with hss
                subst hss
                injection he2 with hee
                subst hee
                rcases hcond with hlt2 | hp2 | ⟨v, hp2⟩
                · exact hlt hlt2
                · rw [hp] at hp2; exact Option.noConfusion hp2
                · rw [hp] at hp2
                  injection hp2 with hlit
                  exact PyLit.noConfusion hlit
  · intro t h1 _
    have hf : findIdxOf '[' (cleanedText t) = none :=
      (findIdxOf_eq_none '[' (cleanedText t)).mpr
        (fun hm => h1 (mem_cleanedText t '[' hm))
    cases hr : rfindIdxOf ']' (cleanedText t) with
    | none => simp [extract_list, extractFails, hf, hr]
    | some e => simp [extract_list, extractFails, hf, hr]

theorem C6_extract_failure_conditions_witness :
    extractFails (extract_list "no list here") = true :=
  C6_extract_failure_conditions.2 "no list here" (by decide) (by decide)

/-- C7: when the delimited slice parses to a one-element list whose element
is a string containing a newline, `extract_list` returns that string split
on newlines, with each line stripped and empty lines discarded; on the
concrete blob response it returns the three lines. -/
theorem C7_single_multiline_split :
    (∀ (t s : String) (st sp : Nat),
      findIdxOf '[' (cleanedText t) = some st →
      rfindIdxOf ']' (cleanedText t) = some sp →
      ¬ sp < st →
      pyLiteralEval (listSlice (cleanedText t) st sp) =
        some (PyLit.list [PyVal.str s]) →
      s.data.contains '\n' = true →
      extract_list t = Except.ok (pySplitLines s)) ∧
    extract_list "[\"line1\\nline2\\nline3\"]" =
      Except.ok [PyVal.str "line1", PyVal.str "line2", PyVal.str "line3"] := by
  constructor
  · intro t s st sp hf hr hlt hp hnl
    unfold extract_list
    simp only [hf, hr]
    rw [if_neg hlt]
    simp only [hp]
    simp only [splitSingleMultiline, hnl, if_true]
  · rfl

theorem C7_single_multiline_split_witness :
    extract_list "[\"x\\ny\"]" = Except.ok (pySplitLines "x\ny") :=
  C7_single_multiline_split.1 "[\"x\\ny\"]" "x\ny" 0 7
    (by rfl) (by rfl) (by decide) (by rfl) (by rfl)

/-- C8: whenever the loop issues a chunk (the unique count is still short of
the target), the requested chunk size is `min 8 missing` with
`missing = n - |unique|`; and with target 1 and a first successful response
containing at least one item, the run issues exactly one chunk request, of
size 1. -/
theorem C8_chunk_size_request :
    (∀ (resp : Nat → Option (List PyVal)) (n cf rf idx : Nat)
        (all u : List PyVal) (szs : List Nat),
      collectLoop resp n (cf + 1) rf idx all = some (u, szs) →
      (dedupFirst all).length < n →
      ∃ szs2, szs = (min 8 (n - (dedupFirst all).length)) :: szs2) ∧
    (∀ (resp : Nat → Option (List PyVal)) (items : List PyVal),
      resp 0 = some items → items ≠ [] →
      ∃ r, collect resp 1 2 2 = some (r, [1])) := by
  constructor
  · intro resp n cf rf idx all u szs h hlt
    simp only [collectLoop] at h
    rw [if_neg (by omega)] at h
    cases hns : nextSuccess resp rf idx with
    | none => simp only [hns] at h; exact Option.noConfusion h
    | some p =>
      obtain ⟨items, idx2⟩ := p
      simp only [hns] at h
      cases hrec : collectLoop resp n cf rf idx2 (all ++ items) with
      | none => simp only [hrec] at h; exact Option.noConfusion h
      | some q =>
        obtain ⟨u2, szs2⟩ := q
        simp only [hrec, Option.some.injEq, Prod.mk.injEq] at h
        refine ⟨szs2, ?_⟩
        rw [← h.2, Nat.min_def]
  · intro resp items h0 hne
    have hu : 1 ≤ (dedupFirst items).length := by
      cases items with
      | nil => exact absurd rfl hne
      | cons x xs =>
        rw [dedupFirst_cons]
        simp
    have hns : nextSuccess resp 2 0 = some (items, 1) := by
      simp only [nextSuccess, h0]
    have hloop : collectLoop resp 1 2 2 0 [] = some (dedupFirst items, [1]) := by
      simp only [collectLoop]
      rw [if_neg (by decide)]
      simp only [hns, List.nil_append]
      rw [if_pos hu]
      rfl
    refine ⟨if 1 < (dedupFirst items).length
      then (dedupFirst items).take 1 else dedupFirst items, ?_⟩
    unfold collect
    rw [hloop]
    rfl

theorem C8_chunk_size_request_witness :
    (∃ szs2, ([2] : List Nat) =
      (min 8 (2 - (dedupFirst ([] : List PyVal)).length)) :: szs2) ∧
    (∃ r, collect (fun _ => some [PyVal.str "a"]) 1 2 2 = some (r, [1])) :=
  ⟨C8_chunk_size_request.1 (fun _ => some [PyVal.str "red", PyVal.str "green"])
      2 1 2 0 [] [PyVal.str "red", PyVal.str "green"] [2] (by rfl) (by decide),
   C8_chunk_size_request.2 (fun _ => some [PyVal.str "a"]) [PyVal.str "a"]
      rfl (by decide)⟩
